import Mathlib

/-
Shallow embedding of the `sugar_diff` repository (src/main.rs, src/meassurement.rs).

Modelling conventions:
* Rust `String` values are embedded as `List Char`; `str::split(':')` is
  `splitFields`; `str::trim` is `trim`.
* `u8::from_str` / `i16::from_str` become `parseU8` / `parseI16`
  (optional sign, decimal digits, range check; `none` on failure).
* A Rust `panic!` reached through `.unwrap()` is modelled as a distinguished
  outcome (`none` for `timeFromChars`, `ParseResult.panicked` further up):
  no error value reaches the caller in that case.
* `i16` subtractions whose exact result can leave the `i16` range for
  parser-admissible operands (`self.y - m_2.y`, `80 - level`, `300 - level`)
  are embedded with explicit two's-complement wrapping (`wrap16`), the
  release-build semantics; a debug build panics at exactly the wrapping
  inputs, so outside the `i16` range the exact integer result is not
  available to the program either way. Timestamps (at most 255*60+255) and
  their differences always stay inside `i16`, so no wrapping is needed there.
* `f32` expressions are embedded as `F32Val`: finite results are kept as
  exact rationals (IEEE rounding of finite results is not modelled), while
  the special values ±∞ and NaN produced by division by zero — which decide
  the projection's branching — are modelled explicitly, as are the IEEE
  `<= 0.0` comparison and negation on them. The sign of an IEEE zero is not
  tracked; it can only matter when a zero rate (equal values) is used as a
  divisor, a case the theorems below exclude by hypothesis.
* `f64` chart arithmetic on those integers is embedded in `ℚ` (0.9 as 9/10).
-/

namespace SugarDiff

/-- Embedding of Rust `str::split(':')` on character lists: the result is
never empty, an empty input yields one empty field, and a trailing `:`
yields a trailing empty field. -/
def splitFields : List Char → List (List Char)
  | [] => [[]]
  | c :: rest =>
    match splitFields rest with
    | [] => [[]]
    | f :: fs => if c = ':' then [] :: f :: fs else (c :: f) :: fs

/-- Numeric value of a digit string (most significant digit first). -/
def digitsVal (cs : List Char) : Nat :=
  cs.foldl (fun acc c => acc * 10 + (c.toNat - 48)) 0

/-- A nonempty all-digit character list parses to its decimal value. -/
def digitsToNat (cs : List Char) : Option Nat :=
  if cs ≠ [] ∧ cs.all Char.isDigit then some (digitsVal cs) else none

/-- Embedding of Rust `u8::from_str`: optional leading `+`, then decimal
digits, value at most 255. -/
def parseU8 (s : List Char) : Option Nat :=
  match digitsToNat (if s.head? = some '+' then s.tail else s) with
  | some n => if n ≤ 255 then some n else none
  | none => none

/-- Embedding of Rust `i16::from_str`: optional sign, then decimal digits,
value in [-32768, 32767]. -/
def parseI16 (s : List Char) : Option Int :=
  if s.head? = some '-' then
    match digitsToNat s.tail with
    | some n => if n ≤ 32768 then some (-(n : Int)) else none
    | none => none
  else
    match digitsToNat (if s.head? = some '+' then s.tail else s) with
    | some n => if n ≤ 32767 then some (n : Int) else none
    | none => none

/-- Embedding of Rust `str::trim`: drop whitespace from both ends. -/
def trim (s : List Char) : List Char :=
  ((s.dropWhile Char.isWhitespace).reverse.dropWhile Char.isWhitespace).reverse

/-- `Time` from src/meassurement.rs: hours and minutes (`u8` fields,
range-checked at parse time). -/
structure Time where
  h : Nat
  m : Nat
deriving DecidableEq

/-- `Time::timestamp`: `self.h as i16 * 60 + self.m as i16`
(minutes since midnight; at most 255*60+255, well inside `i16`). -/
def Time.timestamp (t : Time) : Int :=
  (t.h : Int) * 60 + (t.m : Int)

/-- Rust `{:02}` formatting of a number: zero-padded to width at least 2. -/
def pad2 (n : Nat) : String :=
  if n < 10 then "0" ++ toString n else toString n

/-- `Display for Time`: `write!(f, "{:02}:{:02}", self.h, self.m)`. -/
def Time.display (t : Time) : String :=
  pad2 t.h ++ ":" ++ pad2 t.m

/-- `impl From<String> for Time`: split on `:`, parse the first two fields
as `u8` with `.unwrap()` on each step. `none` models the panic raised by an
`unwrap` on a missing second field or a failed `u8` parse: in that case no
value (and no error value) is produced for the caller. -/
def timeFromChars (s : List Char) : Option Time :=
  match splitFields s with
  | [] => none
  | f0 :: rest =>
    match parseU8 f0 with
    | none => none
    | some h =>
      match rest with
      | [] => none
      | f1 :: _ =>
        match parseU8 f1 with
        | none => none
        | some m => some ⟨h, m⟩

/-- `Meassurement` from src/meassurement.rs: a scalar `y` (`i16`,
range-checked at parse time) and a `Time`. -/
structure Meassurement where
  y : Int
  t : Time
deriving DecidableEq

/-- Outcome of a fallible operation in the embedded program:
`ok`, a recoverable `Err` propagated with `?` (`invalidValue`, the only
`Err` the code ever constructs, from the `i16` parse), or a panic. -/
inductive ParseResult (α : Type) where
  | ok : α → ParseResult α
  | invalidValue : ParseResult α
  | panicked : ParseResult α
deriving DecidableEq

/-- `Meassurement::new`: trim and parse the value as `i16` (an `Err` here is
propagated with `?`), then convert the trimmed time string via
`From<String> for Time` (which panics on malformed input). -/
def Meassurement.new (ys ts : List Char) : ParseResult Meassurement :=
  match parseI16 (trim ys) with
  | none => .invalidValue
  | some y =>
    match timeFromChars (trim ts) with
    | none => .panicked
    | some t => .ok ⟨y, t⟩

/-- `Meassurement::timestamp`: delegates to the contained `Time`. -/
def Meassurement.timestamp (m : Meassurement) : Int :=
  m.t.timestamp

/-- Two's-complement wrap of an integer into the `i16` range
[-32768, 32767]: the release-build result of an overflowing `i16`
subtraction (a debug build panics at exactly the inputs where
`wrap16 x ≠ x`). -/
def wrap16 (x : Int) : Int :=
  (x + 32768) % 65536 - 32768

/-- Value of an `f32` expression: a finite value (kept as an exact
rational; IEEE rounding of finite results is not modelled), or one of the
special values ±∞ / NaN that `f32` division by zero produces. -/
inductive F32Val where
  | fin : ℚ → F32Val
  | posInf : F32Val
  | negInf : F32Val
  | nan : F32Val
deriving DecidableEq

/-- The IEEE comparison `rate <= 0.0` used by the projection:
false on NaN and +∞, true on -∞. -/
def F32Val.leZero : F32Val → Bool
  | .fin q => decide (q ≤ 0)
  | .posInf => false
  | .negInf => true
  | .nan => false

/-- IEEE `f32` negation. -/
def F32Val.neg : F32Val → F32Val
  | .fin q => .fin (-q)
  | .posInf => .negInf
  | .negInf => .posInf
  | .nan => .nan

instance : Neg F32Val :=
  ⟨F32Val.neg⟩

/-- IEEE `f32` division of a finite value by an already-computed `f32`
value: finite/±∞ is a zero, finite/NaN is NaN, finite/0.0 is ±∞ by the
sign of the numerator (0.0/0.0 is NaN; the sign of a zero divisor is not
tracked, see the header note). -/
def divFinF32 (a : ℚ) : F32Val → F32Val
  | .fin q =>
    if q = 0 then
      if 0 < a then F32Val.posInf else if a < 0 then F32Val.negInf else F32Val.nan
    else F32Val.fin (a / q)
  | .posInf => F32Val.fin 0
  | .negInf => F32Val.fin 0
  | .nan => F32Val.nan

/-- `Meassurement::diff`: `(self.y - m_2.y) as f32 / (Δtimestamp) as f32`.
The value difference is an `i16` subtraction (wrapped); the timestamp
difference never overflows. With a zero timestamp difference the `f32`
division yields +∞, -∞ or NaN by the sign of the (wrapped) value
difference; otherwise the finite quotient. -/
def Meassurement.diff (m1 m2 : Meassurement) : F32Val :=
  if m1.timestamp - m2.timestamp = 0 then
    if 0 < wrap16 (m1.y - m2.y) then F32Val.posInf
    else if wrap16 (m1.y - m2.y) < 0 then F32Val.negInf
    else F32Val.nan
  else
    F32Val.fin (((wrap16 (m1.y - m2.y) : Int) : ℚ) /
      ((m1.timestamp - m2.timestamp : Int) : ℚ))

/-- `ToString for Meassurement`: `format!("[{}] {}", self.t, self.y)`. -/
def Meassurement.toDisplay (m : Meassurement) : String :=
  "[" ++ m.t.display ++ "] " ++ toString m.y

/-- Insertion index computed by `App::add_meassure`:
`enumerate().rev().find(|(_, m2)| m2.timestamp() < m.timestamp())`, i.e. the
rightmost index whose timestamp is strictly below `t`, plus one; 0 when no
such entry exists. -/
def add_position (log : List Meassurement) (t : Int) : Nat :=
  match log.enum.reverse.find? (fun p => decide (p.2.timestamp < t)) with
  | some (idx, _) => idx + 1
  | none => 0

/-- The `Vec::insert` call of `App::add_meassure` on the measurement log. -/
def insertMeassure (log : List Meassurement) (m : Meassurement) : List Meassurement :=
  log.insertIdx (add_position log m.timestamp) m

/-- `InputMode` from src/main.rs. -/
inductive InputMode where
  | Level : InputMode
  | Time : InputMode
deriving DecidableEq

/-- `App` from src/main.rs. -/
structure App where
  level_input : List Char
  time_input : List Char
  input_mode : InputMode
  meassurements : List Meassurement
deriving DecidableEq

/-- `App::new`. -/
def App.new : App :=
  ⟨[], [], InputMode.Level, []⟩

/-- `App::add_meassure`: build a `Meassurement` from the two input buffers
(propagating its failure), insert it at its sorted position, then clear both
buffers. On failure nothing is modified. -/
def App.add_meassure (app : App) : ParseResult App :=
  match Meassurement.new app.level_input app.time_input with
  | .invalidValue => .invalidValue
  | .panicked => .panicked
  | .ok m =>
    .ok { app with
          meassurements := insertMeassure app.meassurements m,
          level_input := [],
          time_input := [] }

/-- Key events dispatched by `run_app`. -/
inductive KeyCode where
  | esc : KeyCode
  | backspace : KeyCode
  | char : Char → KeyCode
  | enter : KeyCode
  | other : KeyCode
deriving DecidableEq

/-- Result of one iteration of the `run_app` loop body:
continue with a new state, return `Ok` (Esc), return `Err`
(an error propagated by `?`, which ends the loop and makes `run_app`
return), or panic. -/
inductive StepResult where
  | cont : App → StepResult
  | exitOk : StepResult
  | exitErr : App → StepResult
  | panicked : StepResult
deriving DecidableEq

/-- Whether a loop-body outcome keeps the input/render loop running. -/
def StepResult.continues : StepResult → Bool
  | .cont _ => true
  | _ => false

/-- One iteration of the `run_app` event loop on a key event. On
`Enter` in time mode the code runs `app.add_meassure()?`: an `Err` is
propagated out of the loop (`exitErr`, with the state unchanged), and a
panic inside the call aborts the process. -/
def runStep (app : App) (key : KeyCode) : StepResult :=
  match key with
  | .esc => .exitOk
  | .backspace =>
    .cont (match app.input_mode with
      | .Level => { app with level_input := app.level_input.dropLast }
      | .Time => { app with time_input := app.time_input.dropLast })
  | .char c =>
    .cont (match app.input_mode with
      | .Level => { app with level_input := app.level_input ++ [c] }
      | .Time => { app with time_input := app.time_input ++ [c] })
  | .enter =>
    match app.input_mode with
    | .Level => .cont { app with input_mode := InputMode.Time }
    | .Time =>
      match app.add_meassure with
      | .ok app2 => .cont { app2 with input_mode := InputMode.Level }
      | .invalidValue => .exitErr app
      | .panicked => .panicked
  | .other => .cont app

/-- Sortedness invariant of the measurement log: every adjacent pair is in
non-decreasing timestamp order. -/
def SortedLog (log : List Meassurement) : Prop :=
  List.Chain' (fun a b => a.timestamp ≤ b.timestamp) log

instance (log : List Meassurement) : Decidable (SortedLog log) :=
  inferInstanceAs (Decidable (List.Chain' _ log))

/-- Chart points built in `ui`: one `(timestamp, value)` pair per
measurement, in log order (`f64` pairs, embedded in `ℚ`). -/
def chartData (log : List Meassurement) : List (ℚ × ℚ) :=
  log.map fun m => ((m.timestamp : ℚ), (m.y : ℚ))

/-- Lower x-axis bound of the chart in `ui`:
`data.iter().map(|dp| dp.0).reduce(f64::min).unwrap_or(0.0) * 0.9`. -/
def xLowerBound (log : List Meassurement) : ℚ :=
  (match (chartData log).map Prod.fst with
   | [] => (0 : ℚ)
   | x :: xs => xs.foldl min x) * (9 / 10)

/-- Upper x-axis bound of the chart in `ui` (minutes in a day). -/
def xUpperBound : ℚ := 1440

/-- Fixed y-axis bounds of the chart in `ui`. -/
def yAxisBounds : ℚ × ℚ := (0, 400)

/-- The threshold-crossing projection computed in `ui` (lines 212-231 of
src/main.rs): with at least two measurements, take `mf = last`,
`mpf = get(len - 2)`, `rate = mf.diff(mpf)`; the IEEE `rate <= 0.0` branch
targets 80 ("low"), the other branch targets 300 ("high"); the threshold
subtractions `80 - level` and `300 - level` are `i16` operations (wrapped)
cast to `f32`, divided by `rate`; `none` models the
"Waiting for meassurements..." placeholder. -/
def projectCrossing (log : List Meassurement) : Option (String × F32Val) :=
  if 2 ≤ log.length then
    match log.getLast? with
    | none => none
    | some mf =>
      match log.get? (log.length - 2) with
      | none => none
      | some mpf =>
        let level := mf.y
        let rate := mf.diff mpf
        if rate.leZero then
          some ("low", divFinF32 ((wrap16 (80 - level) : Int) : ℚ) rate)
        else
          some ("high", divFinF32 ((wrap16 (300 - level) : Int) : ℚ) rate)
  else none

/-! ### Helper lemmas about field splitting and numeric parsing -/

theorem splitFields_ne_nil : ∀ s : List Char, splitFields s ≠ []
  | [] => by simp [splitFields]
  | c :: rest => by
    have ih := splitFields_ne_nil rest
    cases h : splitFields rest with
    | nil => exact absurd h ih
    | cons f fs =>
      simp only [splitFields, h]
      split <;> simp

theorem splitFields_no_colon (s : List Char) (h : ':' ∉ s) : splitFields s = [s] := by
  induction s with
  | nil => rfl
  | cons c rest ih =>
    have hc : ¬ c = ':' := fun e => h (e ▸ List.mem_cons_self c rest)
    have hr : ':' ∉ rest := fun hm => h (List.mem_cons_of_mem c hm)
    simp only [splitFields, ih hr]
    simp [hc]

theorem splitFields_append (hs ms : List Char) (h : ':' ∉ hs) :
    splitFields (hs ++ ':' :: ms) = hs :: splitFields ms := by
  induction hs with
  | nil =>
    cases hm : splitFields ms with
    | nil => exact absurd hm (splitFields_ne_nil ms)
    | cons f fs => simp [splitFields, hm]
  | cons c rest ih =>
    have hc : ¬ c = ':' := fun e => h (by rw [e]; exact List.mem_cons_self ':' _)
    have hr : ':' ∉ rest := fun hm => h (List.mem_cons_of_mem c hm)
    simp only [List.cons_append, splitFields, List.append_eq]
    rw [ih hr]
    simp [hc]

theorem digitsToNat_all_digit {cs : List Char} {n : Nat} (h : digitsToNat cs = some n) :
    ∀ c ∈ cs, c.isDigit := by
  unfold digitsToNat at h
  split at h
  · next hcond => exact fun c hc => List.all_eq_true.mp hcond.2 c hc
  · exact absurd h (by simp)

theorem parseU8_no_colon (s : List Char) (n : Nat) (h : parseU8 s = some n) : ':' ∉ s := by
  intro hmem
  unfold parseU8 at h
  by_cases hp : s.head? = some '+'
  · rw [if_pos hp] at h
    have hs : s = '+' :: s.tail := by
      cases s with
      | nil => exact absurd hp (by simp)
      | cons a t =>
        simp only [List.head?] at hp
        have : a = '+' := by injection hp
        simp [this]
    cases hd : digitsToNat s.tail with
    | none => rw [hd] at h; exact Option.noConfusion h
    | some v =>
      have hall := digitsToNat_all_digit hd
      rw [hs] at hmem
      rcases List.mem_cons.mp hmem with hcp | hct
      · exact absurd hcp (by decide)
      · exact absurd (hall ':' hct) (by decide)
  · rw [if_neg hp] at h
    cases hd : digitsToNat s with
    | none => rw [hd] at h; exact Option.noConfusion h
    | some v =>
      have hall := digitsToNat_all_digit hd
      exact absurd (hall ':' hmem) (by decide)

theorem timeFromChars_of_fields (s f0 f1 : List Char) (rest : List (List Char))
    (hv mv : Nat) (hsplit : splitFields s = f0 :: f1 :: rest)
    (h0 : parseU8 f0 = some hv) (h1 : parseU8 f1 = some mv) :
    timeFromChars s = some ⟨hv, mv⟩ := by
  simp only [timeFromChars, hsplit, h0, h1]

theorem timeFromChars_fails (s : List Char)
    (h : (splitFields s).length < 2 ∨
         (∃ f0, (splitFields s).head? = some f0 ∧ parseU8 f0 = none) ∨
         (∃ f1, (splitFields s).get? 1 = some f1 ∧ parseU8 f1 = none)) :
    timeFromChars s = none := by
  cases hsf : splitFields s with
  | nil => exact absurd hsf (splitFields_ne_nil s)
  | cons f0 rest =>
    rcases h with hlen | ⟨g0, hg0, hp0⟩ | ⟨g1, hg1, hp1⟩
    · rw [hsf] at hlen
      have hrest : rest = [] := by
        cases rest with
        | nil => rfl
        | cons a b => simp only [List.length_cons] at hlen; omega
      subst hrest
      simp only [timeFromChars, hsf]
      cases hp : parseU8 f0 <;> simp [hp]
    · rw [hsf] at hg0
      have : g0 = f0 := by simpa using hg0.symm
      subst this
      simp only [timeFromChars, hsf, hp0]
    · rw [hsf] at hg1
      cases rest with
      | nil => simp at hg1
      | cons f1 rest2 =>
        have : g1 = f1 := by simpa using hg1.symm
        subst this
        simp only [timeFromChars, hsf]
        cases hp : parseU8 f0 <;> simp [hp, hp1]

/-! ### Claims about time parsing: C4, C6, C9 -/

/-- C4 counterexample: for the time inputs "1230" and "" (fewer than two
colon-separated fields), `Meassurement` construction does not surface a
recoverable `MalformedTime` error to its caller: the `unwrap` calls inside
`From<String> for Time` panic, which the embedding records as
`ParseResult.panicked`, distinct from the recoverable-error outcome. -/
theorem time_error_surfaced_cex :
    Meassurement.new "100".toList "1230".toList = ParseResult.panicked ∧
    Meassurement.new "100".toList "".toList = ParseResult.panicked ∧
    (ParseResult.panicked : ParseResult Meassurement) ≠ ParseResult.invalidValue := by
  decide

/-- C4 (amended): for every time string with fewer than two colon-separated
fields, or whose first or second field does not parse as a `u8`,
`Time` construction panics (aborting the process); no recoverable error
value is surfaced to the caller of `Meassurement::new`. -/
theorem time_error_panics (ys ts : List Char)
    (hy : (parseI16 (trim ys)).isSome = true)
    (ht : (splitFields (trim ts)).length < 2 ∨
          (∃ f0, (splitFields (trim ts)).head? = some f0 ∧ parseU8 f0 = none) ∨
          (∃ f1, (splitFields (trim ts)).get? 1 = some f1 ∧ parseU8 f1 = none)) :
    Meassurement.new ys ts = ParseResult.panicked := by
  have htime : timeFromChars (trim ts) = none := timeFromChars_fails _ ht
  cases hp : parseI16 (trim ys) with
  | none => rw [hp] at hy; exact absurd hy (by simp)
  | some y => simp only [Meassurement.new, hp, htime]

/-- Witness for `time_error_panics`: value "100" with the malformed time
"ab:10" (non-numeric hour field) makes `Meassurement::new` panic. -/
theorem time_error_panics_witness :
    Meassurement.new "100".toList "ab:10".toList = ParseResult.panicked :=
  time_error_panics "100".toList "ab:10".toList (by decide)
    (Or.inr (Or.inl ⟨"ab".toList, by decide, by decide⟩))

/-- C9: for every time string whose split has more than two colon-separated
fields and whose first two fields parse as `u8`, `Time` construction
succeeds using only the first two fields; everything after the second field
is ignored. -/
theorem extra_fields_ignored (s f0 f1 : List Char) (rest : List (List Char))
    (hv mv : Nat) (hsplit : splitFields s = f0 :: f1 :: rest) (hrest : rest ≠ [])
    (h0 : parseU8 f0 = some hv) (h1 : parseU8 f1 = some mv) :
    timeFromChars s = some ⟨hv, mv⟩ :=
  timeFromChars_of_fields s f0 f1 rest hv mv hsplit h0 h1

/-- Witness for `extra_fields_ignored`: "12:30:45" parses to `Time` 12:30,
ignoring the third field "45". -/
theorem extra_fields_ignored_witness :
    timeFromChars "12:30:45".toList = some ⟨12, 30⟩ :=
  extra_fields_ignored "12:30:45".toList "12".toList "30".toList ["45".toList]
    12 30 (by decide) (by decide) (by decide) (by decide)

theorem pad2_length (n : Nat) (h : n < 100) : (pad2 n).length = 2 := by
  have key : ∀ k, k < 100 → (pad2 k).length = 2 := by decide
  exact key n h

/-- C6: for every valid time string built from an hour field parsing to
`hv ≤ 23` and a minute field parsing to `mv ≤ 59`, parsing the string into a
`Time` succeeds with exactly those components, and displaying it yields the
zero-padded canonical form `pad2 hv ++ ":" ++ pad2 mv`, a five-character
`HH:MM` rendering (e.g. "9:5" parses to hour 9, minute 5 and displays as
"09:05"). -/
theorem time_display_roundtrip (hs ms : List Char) (hv mv : Nat)
    (hph : parseU8 hs = some hv) (hpm : parseU8 ms = some mv)
    (hhour : hv ≤ 23) (hmin : mv ≤ 59) :
    timeFromChars (hs ++ ':' :: ms) = some ⟨hv, mv⟩ ∧
    Time.display ⟨hv, mv⟩ = pad2 hv ++ ":" ++ pad2 mv ∧
    (Time.display ⟨hv, mv⟩).length = 5 := by
  have hch : ':' ∉ hs := parseU8_no_colon hs hv hph
  have hcm : ':' ∉ ms := parseU8_no_colon ms mv hpm
  have hsplit : splitFields (hs ++ ':' :: ms) = hs :: splitFields ms :=
    splitFields_append hs ms hch
  have hms : splitFields ms = [ms] := splitFields_no_colon ms hcm
  rw [hms] at hsplit
  refine ⟨?_, rfl, ?_⟩
  · simp only [timeFromChars, hsplit, hph, hpm]
  · have l1 : (pad2 hv).length = 2 := pad2_length hv (by omega)
    have l2 : (pad2 mv).length = 2 := pad2_length mv (by omega)
    simp [Time.display, String.length_append, l1, l2]
    decide

/-- Witness for `time_display_roundtrip`: "9:5" parses to `Time` 9:05 and
displays as "09:05". -/
theorem time_display_roundtrip_witness :
    timeFromChars "9:5".toList = some ⟨9, 5⟩ ∧ Time.display ⟨9, 5⟩ = "09:05" := by
  have h := time_display_roundtrip "9".toList "5".toList 9 5
    (by decide) (by decide) (by decide) (by decide)
  exact ⟨h.1, by decide⟩

/-! ### Helper lemmas about sorted insertion -/

theorem add_position_append (l : List Meassurement) (x : Meassurement) (t : Int) :
    add_position (l ++ [x]) t =
      if x.timestamp < t then l.length + 1 else add_position l t := by
  unfold add_position
  rw [List.enum_append]
  simp only [List.enumFrom, List.reverse_append, List.reverse_cons, List.reverse_nil,
    List.nil_append, List.cons_append, List.find?_cons]
  by_cases hx : x.timestamp < t
  · simp [hx]
  · simp [hx]

theorem add_position_nil (t : Int) : add_position [] t = 0 := rfl

theorem add_position_le (log : List Meassurement) (t : Int) :
    add_position log t ≤ log.length := by
  induction log using List.reverseRecOn with
  | nil => simp [add_position_nil]
  | append_singleton l x ih =>
    rw [add_position_append]
    by_cases hx : x.timestamp < t
    · simp [hx]
    · rw [if_neg hx]
      refine ih.trans ?_
      simp

theorem takeWhile_append_not {α : Type} (p : α → Bool) (l : List α) (x : α)
    (hx : ¬ p x) : (l ++ [x]).takeWhile p = l.takeWhile p := by
  induction l with
  | nil => simp [List.takeWhile, hx]
  | cons a l ih =>
    by_cases h : p a <;> simp [List.takeWhile_cons, h, ih]

theorem insertIdx_takeWhile_length {α : Type} (p : α → Bool) (l : List α) (a : α) :
    l.insertIdx (l.takeWhile p).length a = l.takeWhile p ++ a :: l.dropWhile p := by
  induction l with
  | nil => rfl
  | cons b l ih =>
    by_cases h : p b
    · simp only [List.takeWhile_cons, List.dropWhile_cons, h, if_pos, List.length_cons,
        List.insertIdx_succ_cons, ih, List.cons_append]
    · simp [List.takeWhile_cons, List.dropWhile_cons, h]

theorem head?_dropWhile_not {α : Type} (p : α → Bool) :
    ∀ (l : List α) (y : α), (l.dropWhile p).head? = some y → p y = false := by
  intro l
  induction l with
  | nil => intro y h; simp [List.dropWhile] at h
  | cons a l ih =>
    intro y h
    rw [List.dropWhile_cons] at h
    by_cases ha : p a
    · rw [if_pos ha] at h
      exact ih y h
    · rw [if_neg ha] at h
      simp only [List.head?_cons, Option.some.injEq] at h
      subst h
      exact Bool.eq_false_iff.mpr ha

instance : IsTrans Meassurement (fun a b => a.timestamp ≤ b.timestamp) :=
  ⟨fun _ _ _ h1 h2 => le_trans h1 h2⟩

theorem sortedLog_pairwise {log : List Meassurement} (h : SortedLog log) :
    List.Pairwise (fun a b => a.timestamp ≤ b.timestamp) log :=
  List.chain'_iff_pairwise.mp h

theorem sortedLog_of_append_left {l1 l2 : List Meassurement}
    (h : SortedLog (l1 ++ l2)) : SortedLog l1 :=
  h.sublist (List.sublist_append_left l1 l2)

theorem add_position_sorted (log : List Meassurement) (t : Int) (h : SortedLog log) :
    add_position log t =
      (log.takeWhile (fun m2 => decide (m2.timestamp < t))).length := by
  induction log using List.reverseRecOn with
  | nil => rfl
  | append_singleton l x ih =>
    have hl : SortedLog l := sortedLog_of_append_left h
    have hle : ∀ y ∈ l, y.timestamp ≤ x.timestamp := by
      have hp := sortedLog_pairwise h
      rw [List.pairwise_append] at hp
      exact fun y hy => hp.2.2 y hy x (List.mem_singleton_self x)
    rw [add_position_append]
    by_cases hx : x.timestamp < t
    · rw [if_pos hx]
      have hall : ∀ y ∈ l ++ [x], (fun m2 => decide (m2.timestamp < t)) y = true := by
        intro y hy
        rcases List.mem_append.mp hy with hyl | hyx
        · simpa using lt_of_le_of_lt (hle y hyl) hx
        · rw [List.mem_singleton.mp hyx]; simpa using hx
      rw [List.takeWhile_eq_self_iff.mpr hall]
      simp
    · rw [if_neg hx, ih hl, takeWhile_append_not]
      simpa using hx

theorem insertMeassure_sorted_eq (log : List Meassurement) (m : Meassurement)
    (h : SortedLog log) :
    insertMeassure log m =
      log.takeWhile (fun m2 => decide (m2.timestamp < m.timestamp)) ++
        m :: log.dropWhile (fun m2 => decide (m2.timestamp < m.timestamp)) := by
  unfold insertMeassure
  rw [add_position_sorted log m.timestamp h]
  exact insertIdx_takeWhile_length _ log m

theorem insertMeassure_preserves_sorted (log : List Meassurement) (m : Meassurement)
    (h : SortedLog log) : SortedLog (insertMeassure log m) := by
  rw [insertMeassure_sorted_eq log m h]
  unfold SortedLog at h ⊢
  rw [List.chain'_append]
  refine ⟨h.sublist (List.takeWhile_prefix _).sublist, ?_, ?_⟩
  · rw [List.chain'_cons']
    refine ⟨?_, h.sublist (List.dropWhile_suffix _).sublist⟩
    intro y hy
    have := head?_dropWhile_not _ log y hy
    simp only [decide_eq_false_iff_not, not_lt] at this
    exact this
  · intro a ha b hb
    have hamem : a ∈ log.takeWhile (fun m2 => decide (m2.timestamp < m.timestamp)) :=
      List.mem_of_mem_getLast? ha
    have hap := List.mem_takeWhile_imp hamem
    simp only [List.head?_cons, Option.mem_def, Option.some.injEq] at hb
    subst hb
    simp only [decide_eq_true_eq] at hap
    exact le_of_lt hap

theorem sortedLog_pair (a b : Meassurement) (h : a.timestamp ≤ b.timestamp) :
    SortedLog [a, b] :=
  List.chain'_cons.mpr ⟨h, List.chain'_singleton b⟩

theorem insertMeassure_length (log : List Meassurement) (m : Meassurement) :
    (insertMeassure log m).length = log.length + 1 :=
  List.length_insertIdx _ _ (add_position_le log m.timestamp)

/-! ### Claims about the measurement log: C2, C3, C10 -/

/-- C2: inserting a measurement into a log whose adjacent pairs are in
non-decreasing timestamp order yields a log with the same property, and
hence inserting measurements in any submission order, starting from the
empty log, always produces a log sorted by non-decreasing timestamp. -/
theorem insertion_keeps_log_sorted :
    (∀ (log : List Meassurement) (m : Meassurement),
      SortedLog log → SortedLog (insertMeassure log m)) ∧
    (∀ ms : List Meassurement, SortedLog (ms.foldl insertMeassure [])) := by
  refine ⟨insertMeassure_preserves_sorted, fun ms => ?_⟩
  have key : ∀ (ms init : List Meassurement),
      SortedLog init → SortedLog (ms.foldl insertMeassure init) := by
    intro ms
    induction ms with
    | nil => exact fun init h => h
    | cons m ms ih =>
      exact fun init h => ih _ (insertMeassure_preserves_sorted init m h)
  exact key ms [] List.chain'_nil

/-- Witness for `insertion_keeps_log_sorted`: inserting a 07:00 entry into
a sorted two-entry log keeps the log sorted. -/
theorem insertion_keeps_log_sorted_witness :
    SortedLog (insertMeassure [⟨100, ⟨8, 0⟩⟩, ⟨120, ⟨9, 0⟩⟩] ⟨50, ⟨7, 0⟩⟩) :=
  insertion_keeps_log_sorted.1 [⟨100, ⟨8, 0⟩⟩, ⟨120, ⟨9, 0⟩⟩] ⟨50, ⟨7, 0⟩⟩
    (sortedLog_pair _ _ (by decide))

/-- C3 counterexample: inserting a measurement whose timestamp equals that
of an existing entry places it BEFORE the existing equal-timestamp entry,
not after it: inserting value 120 at 10:00 into the one-entry log
[value 100 at 10:00] yields [120-entry, 100-entry], not
[100-entry, 120-entry] as the claim's stable tie-break demands. -/
theorem equal_timestamp_order_cex :
    insertMeassure [⟨100, ⟨10, 0⟩⟩] ⟨120, ⟨10, 0⟩⟩ =
      [⟨120, ⟨10, 0⟩⟩, ⟨100, ⟨10, 0⟩⟩] ∧
    insertMeassure [⟨100, ⟨10, 0⟩⟩] ⟨120, ⟨10, 0⟩⟩ ≠
      [⟨100, ⟨10, 0⟩⟩, ⟨120, ⟨10, 0⟩⟩] := by
  decide

/-- C3 (amended): for every sorted log and every new measurement, insertion
places the new entry immediately after the last existing entry whose
timestamp is strictly less than the new one — i.e. BEFORE any existing
entries with an equal timestamp (an anti-stable tie-break): the result is
the strictly-smaller prefix, then the new entry, then everything else. -/
theorem equal_timestamp_order_amended (log : List Meassurement) (m : Meassurement)
    (h : SortedLog log) :
    insertMeassure log m =
      log.takeWhile (fun m2 => decide (m2.timestamp < m.timestamp)) ++
        m :: log.dropWhile (fun m2 => decide (m2.timestamp < m.timestamp)) :=
  insertMeassure_sorted_eq log m h

/-- Witness for `equal_timestamp_order_amended`: inserting a 09:00 entry
into a log with entries at 08:00 and 09:00 places it between them (before
the existing equal-timestamp entry). -/
theorem equal_timestamp_order_amended_witness :
    insertMeassure [⟨100, ⟨8, 0⟩⟩, ⟨110, ⟨9, 0⟩⟩] ⟨105, ⟨9, 0⟩⟩ =
      [⟨100, ⟨8, 0⟩⟩, ⟨105, ⟨9, 0⟩⟩, ⟨110, ⟨9, 0⟩⟩] := by
  rw [equal_timestamp_order_amended [⟨100, ⟨8, 0⟩⟩, ⟨110, ⟨9, 0⟩⟩] ⟨105, ⟨9, 0⟩⟩
    (sortedLog_pair _ _ (by decide))]
  decide

/-- C10: whenever `App::add_meassure` succeeds, the resulting state has both
input buffers cleared to the empty string and a measurement log exactly one
entry longer than before. -/
theorem add_clears_buffers (app app2 : App)
    (h : app.add_meassure = ParseResult.ok app2) :
    app2.level_input = [] ∧ app2.time_input = [] ∧
    app2.meassurements.length = app.meassurements.length + 1 := by
  unfold App.add_meassure at h
  cases hm : Meassurement.new app.level_input app.time_input with
  | invalidValue => rw [hm] at h; exact ParseResult.noConfusion h
  | panicked => rw [hm] at h; exact ParseResult.noConfusion h
  | ok m =>
    rw [hm] at h
    have happ := ParseResult.ok.inj h
    rw [← happ]
    exact ⟨rfl, rfl, insertMeassure_length app.meassurements m⟩

/-- Witness for `add_clears_buffers`: adding value "100" at time "10:00" to
the fresh state succeeds, clears both buffers and grows the log from zero
to one entry. -/
theorem add_clears_buffers_witness :
    (App.mk [] [] InputMode.Level [⟨100, ⟨10, 0⟩⟩]).level_input = [] ∧
    (App.mk [] [] InputMode.Level [⟨100, ⟨10, 0⟩⟩]).time_input = [] ∧
    (App.mk [] [] InputMode.Level [⟨100, ⟨10, 0⟩⟩]).meassurements.length =
      (App.mk "100".toList "10:00".toList InputMode.Level []).meassurements.length + 1 :=
  add_clears_buffers (App.mk "100".toList "10:00".toList InputMode.Level [])
    (App.mk [] [] InputMode.Level [⟨100, ⟨10, 0⟩⟩]) (by decide)

/-! ### Claims about diff and the projection: C7, C1 -/

theorem wrap16_eq_self (x : Int) (h1 : -32768 ≤ x) (h2 : x ≤ 32767) :
    wrap16 x = x := by
  unfold wrap16
  omega

theorem diff_fin (a b : Meassurement) (hts : a.timestamp ≠ b.timestamp)
    (h1 : -32768 ≤ a.y - b.y) (h2 : a.y - b.y ≤ 32767) :
    a.diff b =
      F32Val.fin (((a.y - b.y : ℤ) : ℚ) / ((a.timestamp - b.timestamp : ℤ) : ℚ)) := by
  unfold Meassurement.diff
  rw [if_neg (sub_ne_zero.mpr hts), wrap16_eq_self _ h1 h2]

/-- C7 counterexample: `diff` is NOT anti-symmetric under argument swap.
For the measurements (value 100 at 08:00) and (value 120 at 08:10), whose
timestamps differ, `a.diff(b) = (100-120)/(480-490) = 2` while
`-b.diff(a) = -((120-100)/(490-480)) = -2`. -/
theorem diff_antisymmetry_cex :
    (Meassurement.mk 100 ⟨8, 0⟩).timestamp ≠ (Meassurement.mk 120 ⟨8, 10⟩).timestamp ∧
    Meassurement.diff ⟨100, ⟨8, 0⟩⟩ ⟨120, ⟨8, 10⟩⟩ ≠
      -(Meassurement.diff ⟨120, ⟨8, 10⟩⟩ ⟨100, ⟨8, 0⟩⟩) := by
  have h1 : Meassurement.diff ⟨100, ⟨8, 0⟩⟩ ⟨120, ⟨8, 10⟩⟩ = F32Val.fin 2 := by
    rw [diff_fin _ _ (by decide) (by decide) (by decide)]
    congr 1
    norm_num [Meassurement.timestamp, Time.timestamp]
  have h2 : Meassurement.diff ⟨120, ⟨8, 10⟩⟩ ⟨100, ⟨8, 0⟩⟩ = F32Val.fin 2 := by
    rw [diff_fin _ _ (by decide) (by decide) (by decide)]
    congr 1
    norm_num [Meassurement.timestamp, Time.timestamp]
  refine ⟨by decide, ?_⟩
  rw [h1, h2, show -(F32Val.fin 2) = F32Val.fin (-2) from rfl]
  intro he
  have := F32Val.fin.inj he
  norm_num at this

/-- C7 (amended): `diff` is SYMMETRIC under argument swap: for every pair
of measurements with differing timestamps whose value difference fits in
`i16` in both directions (so the `i16` subtraction `self.y - m_2.y` does
not overflow either way — at an overflowing difference such as
a.y = 32767, b.y = -1 a release build wraps one direction to -32768 and
even symmetry fails, while a debug build panics), `a.diff(b) = b.diff(a)`:
the slope of the segment between two points does not depend on their
order. -/
theorem diff_symmetric (a b : Meassurement) (h : a.timestamp ≠ b.timestamp)
    (hfit1 : a.y - b.y ≤ 32767) (hfit2 : b.y - a.y ≤ 32767) :
    a.diff b = b.diff a := by
  rw [diff_fin a b h (by omega) hfit1, diff_fin b a (Ne.symm h) (by omega) hfit2]
  have hd : ((a.timestamp - b.timestamp : ℤ) : ℚ) ≠ 0 := by
    rw [Int.cast_ne_zero]
    exact sub_ne_zero.mpr h
  have hd2 : ((b.timestamp - a.timestamp : ℤ) : ℚ) ≠ 0 := by
    rw [Int.cast_ne_zero]
    exact sub_ne_zero.mpr (Ne.symm h)
  congr 1
  rw [div_eq_div_iff hd hd2]
  push_cast
  ring

/-- Witness for `diff_symmetric` at the measurements (100, 08:00) and
(120, 08:10). -/
theorem diff_symmetric_witness :
    Meassurement.diff ⟨100, ⟨8, 0⟩⟩ ⟨120, ⟨8, 10⟩⟩ =
      Meassurement.diff ⟨120, ⟨8, 10⟩⟩ ⟨100, ⟨8, 0⟩⟩ :=
  diff_symmetric ⟨100, ⟨8, 0⟩⟩ ⟨120, ⟨8, 10⟩⟩ (by decide) (by decide) (by decide)

/-- C1 counterexample: the claim's formula `minutes = (80 - last value)/rate`
fails on the parseable log [(0 at 10:00), (-32768 at 10:10)]. There
`rate = -32768/10` and the claim's exact formula gives
`(80 - (-32768))/rate = 32848/(-3276.8) ≈ -10.03` minutes, but the code's
`i16` subtraction `80 - level` wraps 32848 to -32688 (release; a debug
build panics), so the program reports
`(-32688)/(-3276.8) = 10215/1024 ≈ 9.97` minutes. -/
theorem projection_formula_cex :
    projectCrossing [⟨0, ⟨10, 0⟩⟩, ⟨-32768, ⟨10, 10⟩⟩] =
      some ("low", F32Val.fin ((10215 : ℚ) / 1024)) ∧
    F32Val.fin ((10215 : ℚ) / 1024) ≠
      F32Val.fin ((80 - ((-32768 : ℤ) : ℚ)) / (((-32768 : ℤ) : ℚ) / ((10 : ℤ) : ℚ))) := by
  constructor
  · have hdiff : Meassurement.diff ⟨-32768, ⟨10, 10⟩⟩ ⟨0, ⟨10, 0⟩⟩ =
        F32Val.fin ((-32768 : ℚ) / 10) := by
      rw [diff_fin _ _ (by decide) (by decide) (by decide)]
      congr 1 <;> norm_num [Meassurement.timestamp, Time.timestamp]
    have hqne : ((-32768 : ℚ) / 10) ≠ 0 := by norm_num
    have hlast : ([⟨0, ⟨10, 0⟩⟩, ⟨-32768, ⟨10, 10⟩⟩] : List Meassurement).getLast? =
        some ⟨-32768, ⟨10, 10⟩⟩ := by decide
    have hprev : ([⟨0, ⟨10, 0⟩⟩, ⟨-32768, ⟨10, 10⟩⟩] : List Meassurement).get?
        (([⟨0, ⟨10, 0⟩⟩, ⟨-32768, ⟨10, 10⟩⟩] : List Meassurement).length - 2) =
        some ⟨0, ⟨10, 0⟩⟩ := by decide
    have hwrap : wrap16 (80 - (-32768 : ℤ)) = -32688 := by decide
    simp only [projectCrossing, hlast, hprev, hdiff, hwrap]
    rw [if_pos (by decide), if_pos (by simp only [F32Val.leZero, decide_eq_true_eq]; norm_num)]
    simp only [divFinF32]
    rw [if_neg hqne]
    norm_num
  · intro he
    have h := F32Val.fin.inj he
    norm_num at h

/-- C1 (amended): on a log with fewer than two measurements the projection
returns the no-prediction placeholder. On a log whose last two entries are
`prev` then `last`, provided the last two entries have differing timestamps
and differing values (so the rate is finite and nonzero, rather than an
IEEE ±∞/NaN from a zero timestamp difference or a division by a zero
rate), the value difference fits in `i16`, and `-32467 ≤ last.y ≤ 32767`
(so the `i16` threshold subtractions `80 - last.y` and `300 - last.y` do
not overflow), the projection computes
`rate = last.diff(prev) = (last.y - prev.y)/(Δtimestamp)` and reports
direction "low" with `minutes = (80 - last.y)/rate` when `rate ≤ 0`, and
direction "high" with `minutes = (300 - last.y)/rate` when `rate > 0`. -/
theorem projection_two_entries_amended (log : List Meassurement) :
    (log.length < 2 → projectCrossing log = none) ∧
    (∀ (l : List Meassurement) (prev last : Meassurement), log = l ++ [prev, last] →
      last.timestamp ≠ prev.timestamp →
      -32768 ≤ last.y - prev.y → last.y - prev.y ≤ 32767 →
      last.y ≠ prev.y → -32467 ≤ last.y → last.y ≤ 32767 →
      last.diff prev =
        F32Val.fin (((last.y - prev.y : ℤ) : ℚ) /
          ((last.timestamp - prev.timestamp : ℤ) : ℚ)) ∧
      projectCrossing log =
        some (if ((last.y - prev.y : ℤ) : ℚ) /
                ((last.timestamp - prev.timestamp : ℤ) : ℚ) ≤ 0
              then ("low", F32Val.fin (((80 - last.y : ℤ) : ℚ) /
                (((last.y - prev.y : ℤ) : ℚ) /
                  ((last.timestamp - prev.timestamp : ℤ) : ℚ))))
              else ("high", F32Val.fin (((300 - last.y : ℤ) : ℚ) /
                (((last.y - prev.y : ℤ) : ℚ) /
                  ((last.timestamp - prev.timestamp : ℤ) : ℚ)))))) := by
  constructor
  · intro h
    unfold projectCrossing
    rw [if_neg (by omega)]
  · rintro l prev last rfl hts hdy1 hdy2 hyne hylb hyub
    have hdiff := diff_fin last prev hts hdy1 hdy2
    refine ⟨hdiff, ?_⟩
    have hlast : (l ++ [prev, last]).getLast? = some last := by
      rw [show l ++ [prev, last] = (l ++ [prev]) ++ [last] by simp]
      exact List.getLast?_concat _
    have hprev : (l ++ [prev, last]).get? ((l ++ [prev, last]).length - 2) = some prev := by
      have hidx : (l ++ [prev, last]).length - 2 = l.length := by simp
      rw [hidx, List.get?_eq_getElem?, List.getElem?_append_right (Nat.le_refl l.length)]
      simp
    have hqne : ((last.y - prev.y : ℤ) : ℚ) /
        ((last.timestamp - prev.timestamp : ℤ) : ℚ) ≠ 0 := by
      apply div_ne_zero
      · rw [Int.cast_ne_zero]
        exact sub_ne_zero.mpr hyne
      · rw [Int.cast_ne_zero]
        exact sub_ne_zero.mpr hts
    have h80 : wrap16 (80 - last.y) = 80 - last.y := wrap16_eq_self _ (by omega) (by omega)
    have h300 : wrap16 (300 - last.y) = 300 - last.y := wrap16_eq_self _ (by omega) (by omega)
    simp only [projectCrossing, hlast, hprev, hdiff, h80, h300]
    rw [if_pos (show 2 ≤ (l ++ [prev, last]).length by simp)]
    by_cases hq : ((last.y - prev.y : ℤ) : ℚ) /
        ((last.timestamp - prev.timestamp : ℤ) : ℚ) ≤ 0
    · rw [if_pos (by simp only [F32Val.leZero, decide_eq_true_eq]; exact hq), if_pos hq]
      simp only [divFinF32]
      rw [if_neg hqne]
    · rw [if_neg (by simp only [F32Val.leZero, decide_eq_true_eq]; exact hq), if_neg hq]
      simp only [divFinF32]
      rw [if_neg hqne]

/-- Witness for `projection_two_entries_amended`: the spec's concrete
scenario — entries (100, 08:00) then (120, 08:10) give rate 2 > 0, so the
projection targets 300: (300-120)/2 = 90 minutes to "high". -/
theorem projection_two_entries_amended_witness :
    projectCrossing [⟨100, ⟨8, 0⟩⟩, ⟨120, ⟨8, 10⟩⟩] = some ("high", F32Val.fin 90) := by
  have h := (projection_two_entries_amended [⟨100, ⟨8, 0⟩⟩, ⟨120, ⟨8, 10⟩⟩]).2 []
    ⟨100, ⟨8, 0⟩⟩ ⟨120, ⟨8, 10⟩⟩ rfl (by decide) (by decide) (by decide) (by decide)
    (by decide) (by decide)
  rw [h.2]
  rw [if_neg (by norm_num [Meassurement.timestamp, Time.timestamp])]
  norm_num [Meassurement.timestamp, Time.timestamp]

/-! ### Claim about the chart data and axis bounds: C8 -/

theorem foldl_min_le_init (xs : List ℚ) : ∀ x : ℚ, xs.foldl min x ≤ x := by
  induction xs with
  | nil => intro x; exact le_refl x
  | cons a xs ih =>
    intro x
    calc xs.foldl min (min x a) ≤ min x a := ih (min x a)
    _ ≤ x := min_le_left x a

theorem foldl_min_le_mem (xs : List ℚ) : ∀ (x y : ℚ), y ∈ xs → xs.foldl min x ≤ y := by
  induction xs with
  | nil => intro x y hy; exact absurd hy (List.not_mem_nil y)
  | cons a xs ih =>
    intro x y hy
    rcases List.mem_cons.mp hy with rfl | hy2
    · calc xs.foldl min (min x y) ≤ min x y := foldl_min_le_init xs (min x y)
      _ ≤ y := min_le_right x y
    · exact ih (min x a) y hy2

theorem foldl_min_mem (xs : List ℚ) : ∀ x : ℚ, xs.foldl min x = x ∨ xs.foldl min x ∈ xs := by
  induction xs with
  | nil => intro x; exact Or.inl rfl
  | cons a xs ih =>
    intro x
    rcases ih (min x a) with heq | hmem
    · rcases min_choice x a with hxa | hxa
      · exact Or.inl (heq.trans hxa)
      · exact Or.inr (by rw [List.foldl_cons, heq, hxa]; exact List.mem_cons_self a xs)
    · exact Or.inr (List.mem_cons_of_mem a hmem)

/-- C8: the chart dataset holds one `(timestamp, value)` point per
measurement in log order; the x-axis lower bound is 0.9 times the minimum
timestamp present (0 for the empty log), the x-axis upper bound is the
constant 1440, and the y-axis bounds are the constants 0 and 400. -/
theorem chart_points_and_bounds (log : List Meassurement) :
    ((chartData log).length = log.length ∧
      ∀ i : Nat, (chartData log).get? i =
        (log.get? i).map (fun m => ((m.timestamp : ℚ), (m.y : ℚ)))) ∧
    xUpperBound = 1440 ∧ yAxisBounds = (0, 400) ∧
    (log = [] → xLowerBound log = 0) ∧
    (log ≠ [] → ∃ m, m ∈ log ∧ (∀ m2 ∈ log, m.timestamp ≤ m2.timestamp) ∧
      xLowerBound log = (9 / 10) * (m.timestamp : ℚ)) := by
  refine ⟨⟨List.length_map log _, fun i => ?_⟩, rfl, rfl, fun he => by simp [he, xLowerBound, chartData], fun hne => ?_⟩
  · simp [chartData, List.get?_map]
  · cases log with
    | nil => exact absurd rfl hne
    | cons m0 rest =>
      have hxs : (chartData (m0 :: rest)).map Prod.fst =
          (m0.timestamp : ℚ) :: rest.map (fun m => (m.timestamp : ℚ)) := by
        simp [chartData]
      have hfold : xLowerBound (m0 :: rest) =
          ((rest.map (fun m => (m.timestamp : ℚ))).foldl min (m0.timestamp : ℚ)) * (9 / 10) := by
        unfold xLowerBound
        rw [hxs]
      rcases foldl_min_mem (rest.map (fun m => (m.timestamp : ℚ))) (m0.timestamp : ℚ) with
        heq | hmem
      · refine ⟨m0, List.mem_cons_self m0 rest, ?_, ?_⟩
        · intro m2 hm2
          rcases List.mem_cons.mp hm2 with rfl | hm2r
          · exact le_refl _
          · have := foldl_min_le_mem (rest.map (fun m => (m.timestamp : ℚ)))
              (m0.timestamp : ℚ) (m2.timestamp : ℚ) (List.mem_map_of_mem _ hm2r)
            rw [heq] at this
            exact_mod_cast this
        · rw [hfold, heq, mul_comm]
      · rcases List.mem_map.mp hmem with ⟨m, hm, hmts⟩
        refine ⟨m, List.mem_cons_of_mem m0 hm, ?_, ?_⟩
        · intro m2 hm2
          rcases List.mem_cons.mp hm2 with rfl | hm2r
          · have := foldl_min_le_init (rest.map (fun m => (m.timestamp : ℚ)))
              (m2.timestamp : ℚ)
            rw [← hmts] at this
            exact_mod_cast this
          · have := foldl_min_le_mem (rest.map (fun m => (m.timestamp : ℚ)))
              (m0.timestamp : ℚ) (m2.timestamp : ℚ) (List.mem_map_of_mem _ hm2r)
            rw [← hmts] at this
            exact_mod_cast this
        · rw [hfold, hmts, mul_comm]

/-- Witness for `chart_points_and_bounds`: for the two-entry log at 08:00
and 08:10 the minimum timestamp is 480, so the x-axis lower bound is
0.9 * 480 = 432. -/
theorem chart_points_and_bounds_witness :
    xLowerBound [⟨100, ⟨8, 0⟩⟩, ⟨120, ⟨8, 10⟩⟩] = (9 / 10) * 480 ∧
    chartData [⟨100, ⟨8, 0⟩⟩, ⟨120, ⟨8, 10⟩⟩] = [(480, 100), (490, 120)] := by
  have h := (chart_points_and_bounds [⟨100, ⟨8, 0⟩⟩, ⟨120, ⟨8, 10⟩⟩]).2.2.2.2 (by simp)
  rcases h with ⟨m, hm, hmin, heq⟩
  constructor
  · rcases List.mem_cons.mp hm with rfl | hm2
    · exact heq
    · rcases List.mem_cons.mp hm2 with rfl | hm3
      · exfalso
        have := hmin ⟨100, ⟨8, 0⟩⟩ (List.mem_cons_self _ _)
        revert this
        decide
      · exact absurd hm3 (List.not_mem_nil m)
  · decide

/-! ### Claim about error handling in the event loop: C5 -/

/-- C5 counterexample: with the value buffer "abc" (which fails the `i16`
parse) and the time buffer "10:00", pressing Enter in time mode does NOT
let the input/render loop continue: `app.add_meassure()?` propagates the
error out of `run_app`, ending the loop. -/
theorem add_error_stops_loop_cex :
    StepResult.continues
      (runStep (App.mk "abc".toList "10:00".toList InputMode.Time []) KeyCode.enter) = false ∧
    runStep (App.mk "abc".toList "10:00".toList InputMode.Time []) KeyCode.enter =
      StepResult.exitErr (App.mk "abc".toList "10:00".toList InputMode.Time []) := by
  decide

/-- C5 (amended): when `Meassurement` construction fails on an Enter key in
time mode, the current add is aborted with the log and both input buffers
untouched (the `exitErr` outcome carries the unchanged state), but the
error does not merely abort the add: a recoverable parse error propagates
out of the event loop via `?` (so `run_app` returns and the loop stops),
and a malformed time panics the process. -/
theorem add_error_aborts_add (app : App) (hmode : app.input_mode = InputMode.Time) :
    (app.add_meassure = ParseResult.invalidValue →
      runStep app KeyCode.enter = StepResult.exitErr app) ∧
    (app.add_meassure = ParseResult.panicked →
      runStep app KeyCode.enter = StepResult.panicked) := by
  constructor
  · intro herr
    simp only [runStep, hmode, herr]
  · intro herr
    simp only [runStep, hmode, herr]

/-- Witness for `add_error_aborts_add`: the state with value buffer "abc"
and time buffer "10:00" in time mode aborts with the state unchanged. -/
theorem add_error_aborts_add_witness :
    runStep (App.mk "abc".toList "10:00".toList InputMode.Time [⟨100, ⟨9, 0⟩⟩]) KeyCode.enter =
      StepResult.exitErr (App.mk "abc".toList "10:00".toList InputMode.Time [⟨100, ⟨9, 0⟩⟩]) :=
  (add_error_aborts_add (App.mk "abc".toList "10:00".toList InputMode.Time [⟨100, ⟨9, 0⟩⟩])
    rfl).1 (by decide)

end SugarDiff
